import Mathlib

/-!
Shallow embedding of the line-buffered writer of
src/futures-util/src/io/line_writer.rs and the try-lock of
src/futures-channel/src/lock.rs, together with the abstract contract of the
inner buffered sink they drive.

Bytes are modelled as natural numbers; the newline byte is 10.  A poll of an
inner operation yields either pending (cooperative suspension), an error, or a
successful completion, exactly mirroring Poll of io Result in the source.
-/

/-- Result of polling an inner write: pending, failure, or Ok with a byte
count. -/
inductive WRes : Type
  | pending : WRes
  | err : WRes
  | ok : Nat → WRes
  deriving DecidableEq, Repr

/-- Result of polling an inner flush or close: pending, failure, or Ok. -/
inductive FRes : Type
  | pending : FRes
  | err : FRes
  | ok : FRes
  deriving DecidableEq, Repr

/-- Result returned to the caller of a LineWriter poll: pending, an error, or
Ok carrying a value (a byte count for writes, a unit for flush and close). -/
inductive PollR (α : Type) : Type
  | pending : PollR α
  | err : PollR α
  | ok : α → PollR α
  deriving DecidableEq, Repr

/-- An inner writer (the buffered sink a LineWriter owns), presented as a
deterministic state machine over states of type σ: each operation consumes a
state and returns its response plus the successor state.  This is the external
collaborator contract of the spec: poll write takes the submitted buffer;
poll flush and poll close take no argument. -/
structure InnerW (σ : Type) : Type where
  pollWrite : σ → List Nat → WRes × σ
  pollFlush : σ → FRes × σ
  pollClose : σ → FRes × σ

/-- The last index of byte c in buf, mirroring memchr::memrchr from the
source: none when c does not occur. -/
def memrchr (c : Nat) : List Nat → Option Nat
  | [] => none
  | b :: bs =>
    match memrchr c bs with
    | some i => some (i + 1)
    | none => if b = c then some 0 else none

/-- The slice buf[a..b] (half-open), so buf[written..=i] of the source is
sliceRange buf written (i+1). -/
def sliceRange (buf : List Nat) (a b : Nat) : List Nat :=
  (buf.take b).drop a

/-- The persistent state of a LineWriter over an inner writer with states σ:
the inner state, the need_flush flag and the written resumption offset
(fields of the struct in src/futures-util/src/io/line_writer.rs). -/
structure LineWriter (σ : Type) : Type where
  inner : σ
  need_flush : Bool
  written : Nat
  deriving DecidableEq, Repr

/-- One poll of LineWriter::poll_write (lines 136-192 of the source),
translated clause by clause.  The result is none exactly when the source
panics: the slices buf[written..] and buf[written..=i] are taken without a
bounds check, so written > buf.len() (respectively written > i+1) is an
out-of-bounds slice.  Otherwise the result is some (r, st') with r the value
returned to the caller and st' the updated writer. -/
def LineWriter.poll_write {σ : Type} (M : InnerW σ) (st : LineWriter σ)
    (buf : List Nat) : Option (PollR Nat × LineWriter σ) :=
  -- lines 152-191, parameterised by the inner state after the initial
  -- obligation flush (which does not clear need_flush)
  let go : σ → Option (PollR Nat × LineWriter σ) := fun s0 =>
    match memrchr 10 buf with
    | none =>
      -- lines 157-159: written = ready!(inner.poll_write(&buf[written..]))?;
      -- return Ok(replace(written, 0))
      if st.written ≤ buf.length then
        match M.pollWrite s0 (buf.drop st.written) with
        | (.pending, s1) => some (.pending, ⟨s1, st.need_flush, st.written⟩)
        | (.err, s1) => some (.err, ⟨s1, st.need_flush, st.written⟩)
        | (.ok n, s1) => some (.ok n, ⟨s1, st.need_flush, 0⟩)
      else none
    | some i =>
      -- line 168: written += ready!(inner.poll_write(&buf[written..=i]))?
      if st.written ≤ i + 1 then
        match M.pollWrite s0 (sliceRange buf st.written (i + 1)) with
        | (.pending, s1) => some (.pending, ⟨s1, st.need_flush, st.written⟩)
        | (.err, s1) => some (.err, ⟨s1, st.need_flush, st.written⟩)
        | (.ok m, s1) =>
          -- line 169: need_flush = true; lines 170-181: flush, clearing
          -- need_flush only on success; short or failed lines report Ok
          let w1 := st.written + m
          match M.pollFlush s1 with
          | (.pending, s2) => some (.pending, ⟨s2, true, w1⟩)
          | (.err, s2) => some (.ok w1, ⟨s2, true, 0⟩)
          | (.ok, s2) =>
            if w1 = i + 1 then
              -- lines 188-191: one non-resumable attempt at buf[i+1..]
              match M.pollWrite s2 (buf.drop (i + 1)) with
              | (.ok k, s3) => some (.ok (w1 + k), ⟨s3, false, 0⟩)
              | (.err, s3) => some (.ok w1, ⟨s3, false, 0⟩)
              | (.pending, s3) => some (.ok w1, ⟨s3, false, 0⟩)
            else some (.ok w1, ⟨s2, false, 0⟩)
      else none
  -- lines 148-150: if need_flush, resume the inner flush first; its success
  -- does not clear need_flush
  if st.need_flush then
    match M.pollFlush st.inner with
    | (.pending, s) => some (.pending, ⟨s, st.need_flush, st.written⟩)
    | (.err, s) => some (.err, ⟨s, st.need_flush, st.written⟩)
    | (.ok, s) => go s
  else go st.inner

/-- One poll of LineWriter::poll_flush (lines 194-198): resume the inner
flush; on success clear need_flush. -/
def LineWriter.poll_flush {σ : Type} (M : InnerW σ) (st : LineWriter σ) :
    PollR Unit × LineWriter σ :=
  match M.pollFlush st.inner with
  | (.pending, s) => (.pending, ⟨s, st.need_flush, st.written⟩)
  | (.err, s) => (.err, ⟨s, st.need_flush, st.written⟩)
  | (.ok, s) => (.ok (), ⟨s, false, st.written⟩)

/-- One poll of LineWriter::poll_close (lines 200-203): run the writer's own
poll_flush (propagating pending and failure), then close the inner writer. -/
def LineWriter.poll_close {σ : Type} (M : InnerW σ) (st : LineWriter σ) :
    PollR Unit × LineWriter σ :=
  match LineWriter.poll_flush M st with
  | (.pending, st') => (.pending, st')
  | (.err, st') => (.err, st')
  | (.ok _, st') =>
    match M.pollClose st'.inner with
    | (.pending, s) => (.pending, ⟨s, st'.need_flush, st'.written⟩)
    | (.err, s) => (.err, ⟨s, st'.need_flush, st'.written⟩)
    | (.ok, s) => (.ok (), ⟨s, st'.need_flush, st'.written⟩)

/-- An event recorded while a LineWriter drives its inner writer: an inner
write of the given submitted slice with its response, an inner flush with its
response, or an inner close with its response. -/
inductive Ev : Type
  | w : List Nat → WRes → Ev
  | f : FRes → Ev
  | c : FRes → Ev
  deriving DecidableEq, Repr

/-- Instrumentation of an inner writer: the same machine, with every call and
its response appended to a log.  This changes no behaviour; it only makes the
sequence of inner calls visible in theorem statements. -/
def traced {σ : Type} (M : InnerW σ) : InnerW (σ × List Ev) where
  pollWrite := fun s buf =>
    ((M.pollWrite s.1 buf).1, ((M.pollWrite s.1 buf).2, s.2 ++ [Ev.w buf (M.pollWrite s.1 buf).1]))
  pollFlush := fun s =>
    ((M.pollFlush s.1).1, ((M.pollFlush s.1).2, s.2 ++ [Ev.f (M.pollFlush s.1).1]))
  pollClose := fun s =>
    ((M.pollClose s.1).1, ((M.pollClose s.1).2, s.2 ++ [Ev.c (M.pollClose s.1).1]))

/-- The contract an inner writer must satisfy (section 6 of the spec),
phrased on an observer content giving the total bytes the inner writer has
accepted so far (buffered plus flushed, in order): a successful write of n
bytes accepts exactly the first n bytes of the submitted slice, n never
exceeds the slice length; pending and failing writes accept nothing; a flush
moves bytes but neither adds nor drops any. -/
structure WfInner {σ : Type} (M : InnerW σ) (content : σ → List Nat) : Prop where
  write_ok : ∀ s buf n s', M.pollWrite s buf = (.ok n, s') →
    n ≤ buf.length ∧ content s' = content s ++ buf.take n
  write_pending : ∀ s buf s', M.pollWrite s buf = (.pending, s') → content s' = content s
  write_err : ∀ s buf s', M.pollWrite s buf = (.err, s') → content s' = content s
  flush_keep : ∀ s r s', M.pollFlush s = (r, s') → content s' = content s

/-- The pending prefix of one logical write call: a chain of polls of
poll_write, all with the same buffer, each returning pending.  The caller of
an asynchronous writer re-polls exactly like this until the call completes. -/
inductive WriteChain {σ : Type} (M : InnerW σ) (buf : List Nat) :
    LineWriter σ → LineWriter σ → Prop
  | last (st : LineWriter σ) : WriteChain M buf st st
  | more (st st1 st2 : LineWriter σ) :
      LineWriter.poll_write M st buf = some (.pending, st1) →
      WriteChain M buf st1 st2 → WriteChain M buf st st2

/-- Folding step for the outstanding-newline-obligation reading of the log:
an inner write whose accepted portion ends with a newline opens the
obligation, a successful inner flush discharges it. -/
def obStep (b : Bool) : Ev → Bool
  | .w sub (.ok n) => if (sub.take n).getLast? = some 10 then true else b
  | .f .ok => false
  | _ => b

/-- Whether, after the logged inner calls, a newline-terminated chunk has
been handed to the inner writer with no successful inner flush after it. -/
def oblig (l : List Ev) : Bool := l.foldl obStep false

/-- States of a LineWriter (over an instrumented inner writer) reachable from
a fresh writer by any sequence of write, flush and close polls at the public
interface, with arbitrary buffers and any inner responses. -/
inductive Reach {σ : Type} (M : InnerW σ) (s0 : σ) :
    LineWriter (σ × List Ev) → Prop
  | start : Reach M s0 ⟨(s0, []), false, 0⟩
  | wstep (st st' : LineWriter (σ × List Ev)) (buf : List Nat) (r : PollR Nat) :
      Reach M s0 st → LineWriter.poll_write (traced M) st buf = some (r, st') →
      Reach M s0 st'
  | fstep (st st' : LineWriter (σ × List Ev)) (r : PollR Unit) :
      Reach M s0 st → LineWriter.poll_flush (traced M) st = (r, st') →
      Reach M s0 st'
  | cstep (st st' : LineWriter (σ × List Ev)) (r : PollR Unit) :
      Reach M s0 st → LineWriter.poll_close (traced M) st = (r, st') →
      Reach M s0 st'

/-- State of a scripted inner writer: queued responses for writes and for
flushes, plus the bytes accepted so far, split into a pending buffer and the
flushed (durable) part.  Empty queues answer pending.  Any contract-abiding
inner behaviour is realised by some script. -/
structure SIn : Type where
  ws : List WRes
  fs : List FRes
  buffered : List Nat
  flushed : List Nat
  deriving DecidableEq, Repr

/-- The scripted inner writer.  A scripted Ok n accepts min n len bytes, so
every script satisfies the inner contract; a successful flush drains the
buffer into the durable part. -/
def smach : InnerW SIn where
  pollWrite := fun s buf =>
    match s.ws with
    | [] => (.pending, s)
    | r :: rest =>
      match r with
      | .ok n => (.ok (min n buf.length),
          ⟨rest, s.fs, s.buffered ++ buf.take (min n buf.length), s.flushed⟩)
      | .pending => (.pending, ⟨rest, s.fs, s.buffered, s.flushed⟩)
      | .err => (.err, ⟨rest, s.fs, s.buffered, s.flushed⟩)
  pollFlush := fun s =>
    match s.fs with
    | [] => (.pending, s)
    | r :: rest =>
      match r with
      | .ok => (.ok, ⟨s.ws, rest, [], s.flushed ++ s.buffered⟩)
      | .pending => (.pending, ⟨s.ws, rest, s.buffered, s.flushed⟩)
      | .err => (.err, ⟨s.ws, rest, s.buffered, s.flushed⟩)
  pollClose := fun s => (.ok, s)

/-- Total content (buffered plus flushed) accepted by a scripted inner
writer. -/
def SIn.content (s : SIn) : List Nat := s.flushed ++ s.buffered

/-- Modelled from the spec: the generic buffering wrapper (the BufWriter the
LineWriter owns, absent from src) over an in-memory sink, in its
never-suspending form.  Raw copy and flush mechanics only: a write copies the
whole slice into the buffer and reports its length; a flush moves the buffer
into the durable sink; neither ever suspends or fails. -/
structure BV : Type where
  buffered : List Nat
  flushed : List Nat
  deriving DecidableEq, Repr

/-- Modelled from the spec: the never-suspending buffered sink over BV. -/
def bufVec : InnerW BV where
  pollWrite := fun s buf => (.ok buf.length, ⟨s.buffered ++ buf, s.flushed⟩)
  pollFlush := fun s => (.ok, ⟨[], s.flushed ++ s.buffered⟩)
  pollClose := fun s => (.ok, s)

/-- Modelled from the spec: the same buffered sink with pending injected at
every suspension point.  The wrapper's write is a pure in-memory copy (no
call into the underlying sink), so it completes at once; the suspension
points are the flushes that push buffered bytes to the underlying sink, and
each such flush reports pending once before completing, exactly as the
pending-injecting harnesses of the repository behave. -/
structure PV : Type where
  buffered : List Nat
  flushed : List Nat
  fpend : Bool
  deriving DecidableEq, Repr

/-- Modelled from the spec: the pending-injecting buffered sink over PV. -/
def pendVec : InnerW PV where
  pollWrite := fun s buf => (.ok buf.length, ⟨s.buffered ++ buf, s.flushed, s.fpend⟩)
  pollFlush := fun s =>
    if s.buffered = [] then (.ok, s)
    else if s.fpend then (.ok, ⟨[], s.flushed ++ s.buffered, false⟩)
    else (.pending, ⟨s.buffered, s.flushed, true⟩)
  pollClose := fun s => (.ok, s)

/-- One input operation submitted to a LineWriter: a write of a buffer, or an
explicit flush. -/
inductive Op : Type
  | wr : List Nat → Op
  | fl : Op
  deriving DecidableEq, Repr

/-- Drive one operation against the never-suspending sink: a single poll must
complete it.  none signals an unexpected pending, error or panic. -/
def pollOpI (op : Op) (st : LineWriter BV) : Option (LineWriter BV) :=
  match op with
  | .wr buf =>
    match LineWriter.poll_write bufVec st buf with
    | some (.ok _, st') => some st'
    | _ => none
  | .fl =>
    match LineWriter.poll_flush bufVec st with
    | (.ok _, st') => some st'
    | _ => none

/-- Run an input sequence against the never-suspending sink. -/
def runI : List Op → LineWriter BV → Option (LineWriter BV)
  | [], st => some st
  | op :: ops, st =>
    match pollOpI op st with
    | some st' => runI ops st'
    | none => none

/-- Drive one operation against the pending-injecting sink, re-polling on
pending until the operation reports ready (two polls suffice from the states
arising in a run).  none signals an operation still pending after the
re-polls, an error, or a panic. -/
def pollOpP (op : Op) (st : LineWriter PV) : Option (LineWriter PV) :=
  match op with
  | .wr buf =>
    match LineWriter.poll_write pendVec st buf with
    | some (.ok _, st') => some st'
    | some (.pending, st1) =>
      match LineWriter.poll_write pendVec st1 buf with
      | some (.ok _, st') => some st'
      | _ => none
    | _ => none
  | .fl =>
    match LineWriter.poll_flush pendVec st with
    | (.ok _, st') => some st'
    | (.pending, st1) =>
      match LineWriter.poll_flush pendVec st1 with
      | (.ok _, st') => some st'
      | _ => none
    | _ => none

/-- Run an input sequence against the pending-injecting sink, re-driving each
operation until ready. -/
def runP : List Op → LineWriter PV → Option (LineWriter PV)
  | [], st => some st
  | op :: ops, st =>
    match pollOpP op st with
    | some st' => runP ops st'
    | none => none

/-- State of the Lock of src/futures-channel/src/lock.rs: the atomic locked
flag together with the number of live guards (sentinels not yet dropped). -/
structure LockSt : Type where
  locked : Bool
  guards : Nat
  deriving DecidableEq, Repr

/-- Lock::try_lock (lines 55-61): swap the flag to true; if it was clear,
hand out a guard. -/
def Lock.try_lock (s : LockSt) : Option Unit × LockSt :=
  if s.locked then (none, s) else (some (), ⟨true, s.guards + 1⟩)

/-- Drop of TryLock (lines 84-88): store false into the flag; the dropped
guard ceases to be live. -/
def Lock.dropGuard (s : LockSt) : LockSt :=
  ⟨false, s.guards - 1⟩

/-- Lock states reachable from a fresh lock by any sequence of try_lock
calls and guard drops (a drop requires a live guard to exist). -/
inductive LReach : LockSt → Prop
  | start : LReach ⟨false, 0⟩
  | tl (s : LockSt) : LReach s → LReach (Lock.try_lock s).2
  | dg (s : LockSt) : LReach s → 1 ≤ s.guards → LReach (Lock.dropGuard s)

/-! ## Helper lemmas -/

theorem memrchr_eq_none_iff (c : Nat) (buf : List Nat) :
    memrchr c buf = none ↔ c ∉ buf := by
  induction buf with
  | nil => simp [memrchr]
  | cons b bs ih =>
    rw [memrchr]
    cases h : memrchr c bs with
    | some i =>
      have : c ∈ bs := by
        by_contra hc
        rw [← ih] at hc
        simp [h] at hc
      simp [this]
    | none =>
      have hbs : c ∉ bs := ih.mp h
      by_cases hbc : b = c
      · subst hbc
        simp [hbs]
      · simp [hbc, hbs]
        exact fun hcb => hbc hcb.symm

theorem memrchr_lt_length {c i : Nat} {buf : List Nat}
    (h : memrchr c buf = some i) : i < buf.length := by
  induction buf generalizing i with
  | nil => simp [memrchr] at h
  | cons b bs ih =>
    rw [memrchr] at h
    cases hbs : memrchr c bs with
    | some j =>
      rw [hbs] at h
      obtain rfl : j + 1 = i := by simpa using h
      have := ih hbs
      simp
      omega
    | none =>
      rw [hbs] at h
      by_cases hbc : b = c
      · rw [if_pos hbc] at h
        obtain rfl : (0 : Nat) = i := by simpa using h
        simp
      · rw [if_neg hbc] at h
        exact absurd h (by simp)

theorem memrchr_not_mem_drop {c i : Nat} {buf : List Nat}
    (h : memrchr c buf = some i) : c ∉ buf.drop (i + 1) := by
  induction buf generalizing i with
  | nil => simp [memrchr] at h
  | cons b bs ih =>
    rw [memrchr] at h
    cases hbs : memrchr c bs with
    | some j =>
      rw [hbs] at h
      obtain rfl : j + 1 = i := by simpa using h
      simpa using ih hbs
    | none =>
      rw [hbs] at h
      by_cases hbc : b = c <;> simp [hbc] at h
      subst h
      simpa using (memrchr_eq_none_iff c bs).mp hbs

theorem oblig_append (l : List Ev) (e : Ev) :
    oblig (l ++ [e]) = obStep (oblig l) e := by
  simp [oblig, List.foldl_append]

theorem take_getLast?_ne_of_not_mem {sub : List Nat} {n : Nat}
    (h : (10 : Nat) ∉ sub) : (sub.take n).getLast? ≠ some 10 := by
  intro hc
  exact h (List.take_subset n sub (List.mem_of_mem_getLast? hc))

theorem sliceRange_no_newline {buf : List Nat} {i w : Nat}
    (h : memrchr 10 buf = some i) (hw : i + 1 ≤ w) :
    (10 : Nat) ∉ sliceRange buf w (i + 1) := by
  intro hc
  have h1 : sliceRange buf w (i + 1) = [] := by
    apply List.drop_eq_nil_of_le
    calc (buf.take (i + 1)).length ≤ i + 1 := by
          simp [List.length_take]
      _ ≤ w := hw
  simp [h1] at hc

theorem take_append_slice_take {buf : List Nat} {w i m : Nat}
    (hw : w ≤ i + 1) (hi : i < buf.length) (hm : m ≤ i + 1 - w) :
    buf.take w ++ (sliceRange buf w (i + 1)).take m = buf.take (w + m) := by
  have h1 : sliceRange buf w (i + 1) = (buf.drop w).take (i + 1 - w) := by
    simp [sliceRange, List.drop_take]
  rw [h1, List.take_take, min_eq_left hm, List.take_add]

theorem length_sliceRange {buf : List Nat} {a b : Nat}
    (hab : a ≤ b) (hb : b ≤ buf.length) :
    (sliceRange buf a b).length = b - a := by
  simp [sliceRange, List.length_take]
  omega

/-! ## C9: the try-lock invariant -/

/-- C9: for every sequence of try_lock and guard-drop steps on a Lock,
try_lock returns a guard exactly when the locked flag was clear and then sets
it; at most one live guard exists, a clear flag implies no live guard; and
dropping a guard clears the flag so that a following try_lock succeeds. -/
theorem lock_try_lock_invariant (s : LockSt) (h : LReach s) :
    s.guards ≤ 1 ∧
    (s.locked = false → s.guards = 0) ∧
    ((Lock.try_lock s).1.isSome ↔ s.locked = false) ∧
    (s.locked = false → (Lock.try_lock s).2 = ⟨true, s.guards + 1⟩) ∧
    (1 ≤ s.guards → (Lock.try_lock (Lock.dropGuard s)).1.isSome) := by
  have main : s.guards ≤ 1 ∧ (s.locked = false → s.guards = 0) := by
    induction h with
    | start => simp
    | tl s hs ih =>
      by_cases hl : s.locked = true
      · simpa [Lock.try_lock, hl] using ih
      · have hl' : s.locked = false := by simpa using hl
        simp [Lock.try_lock, hl', ih.2 hl']
    | dg s hs hg ih =>
      simp only [Lock.dropGuard]
      omega
  refine ⟨main.1, main.2, ?_, ?_, ?_⟩
  · by_cases hl : s.locked = true <;> simp [Lock.try_lock, hl]
  · intro hl
    simp [Lock.try_lock, hl]
  · intro _
    simp [Lock.try_lock, Lock.dropGuard]

/-- Witness for C9 at a concrete reachable state: one successful try_lock
from a fresh lock yields the held state with one guard. -/
theorem lock_try_lock_invariant_witness :
    (⟨true, 1⟩ : LockSt).guards ≤ 1 ∧
    ((⟨true, 1⟩ : LockSt).locked = false → (⟨true, 1⟩ : LockSt).guards = 0) ∧
    ((Lock.try_lock ⟨true, 1⟩).1.isSome ↔ (⟨true, 1⟩ : LockSt).locked = false) ∧
    ((⟨true, 1⟩ : LockSt).locked = false →
      (Lock.try_lock ⟨true, 1⟩).2 = ⟨true, (⟨true, 1⟩ : LockSt).guards + 1⟩) ∧
    (1 ≤ (⟨true, 1⟩ : LockSt).guards →
      (Lock.try_lock (Lock.dropGuard ⟨true, 1⟩)).1.isSome) := by
  have h : LReach ⟨true, 1⟩ := by
    have h0 := LReach.tl ⟨false, 0⟩ LReach.start
    simpa [Lock.try_lock] using h0
  exact lock_try_lock_invariant ⟨true, 1⟩ h

/-! ## C10: the out-of-bounds slices of poll_write -/

/-- C10: poll_write slices its input at the persisted written offset without
a bounds check.  A call on the buffer 0,0,10 suspends after the inner writer
accepts two bytes (written = 2, mid-line flush pending).  Abandoning that
call and re-invoking write with a shorter buffer (5, length 1 < written) or
with an earlier last newline (10, last newline at index 0, written > i + 1)
reaches the out-of-bounds slice: the embedding returns none, the marker for
the panic of the source. -/
theorem lineWriter_poll_write_panics :
    LineWriter.poll_write smach
        ⟨⟨[WRes.ok 2], [FRes.pending, FRes.ok, FRes.ok], [], []⟩, false, 0⟩
        [0, 0, 10]
      = some (.pending, ⟨⟨[], [FRes.ok, FRes.ok], [0, 0], []⟩, true, 2⟩) ∧
    LineWriter.poll_write smach
        ⟨⟨[], [FRes.ok, FRes.ok], [0, 0], []⟩, true, 2⟩ [5] = none ∧
    LineWriter.poll_write smach
        ⟨⟨[], [FRes.ok, FRes.ok], [0, 0], []⟩, true, 2⟩ [10] = none := by
  refine ⟨?_, ?_, ?_⟩ <;> decide

/-! ## C8: the concrete scenario of the test -/

/-- C8: from a fresh LineWriter over an empty sink, writing 0 then 1 (no
newline) leaves the durable sink empty with both bytes buffered; an explicit
flush makes the sink 0,1; writing 0,nl,1,nl,2 makes the sink
0,1,0,nl,1,nl with the byte 2 still buffered; an explicit flush appends 2;
writing 3,nl appends 3,nl.  The inner buffered sink is modelled from the
spec (bufVec); the durable sink content is the flushed component. -/
theorem lineWriter_scenario_run :
    runI [Op.wr [0], Op.wr [1]] ⟨⟨[], []⟩, false, 0⟩
      = some ⟨⟨[0, 1], []⟩, false, 0⟩ ∧
    runI [Op.wr [0], Op.wr [1], Op.fl] ⟨⟨[], []⟩, false, 0⟩
      = some ⟨⟨[], [0, 1]⟩, false, 0⟩ ∧
    runI [Op.wr [0], Op.wr [1], Op.fl, Op.wr [0, 10, 1, 10, 2]]
        ⟨⟨[], []⟩, false, 0⟩
      = some ⟨⟨[2], [0, 1, 0, 10, 1, 10]⟩, false, 0⟩ ∧
    runI [Op.wr [0], Op.wr [1], Op.fl, Op.wr [0, 10, 1, 10, 2], Op.fl]
        ⟨⟨[], []⟩, false, 0⟩
      = some ⟨⟨[], [0, 1, 0, 10, 1, 10, 2]⟩, false, 0⟩ ∧
    runI [Op.wr [0], Op.wr [1], Op.fl, Op.wr [0, 10, 1, 10, 2], Op.fl,
          Op.wr [3, 10]] ⟨⟨[], []⟩, false, 0⟩
      = some ⟨⟨[], [0, 1, 0, 10, 1, 10, 2, 3, 10]⟩, false, 0⟩ := by
  refine ⟨?_, ?_, ?_, ?_, ?_⟩ <;> decide

/-! ## Counterexamples -/

/-- Counterexample to C1 as stated: a newline call suspends after the inner
writer accepts one byte (written = 1); the caller abandons it and submits a
different newline buffer 1,2,10.  That call completes with Ok 3, but the
inner content gained only bytes 2,10 of the new buffer: its first byte 1 was
skipped by the stale resumption offset, so content is 0,2,10 and not the
content before the call plus the first 3 bytes 1,2,10. -/
theorem lineWriter_newline_call_accounting_cex :
    LineWriter.poll_write smach
        ⟨⟨[WRes.ok 1, WRes.ok 2], [FRes.pending, FRes.ok, FRes.ok, FRes.ok],
          [], []⟩, false, 0⟩ [0, 10]
      = some (.pending,
          ⟨⟨[WRes.ok 2], [FRes.ok, FRes.ok, FRes.ok], [0], []⟩, true, 1⟩) ∧
    LineWriter.poll_write smach
        ⟨⟨[WRes.ok 2], [FRes.ok, FRes.ok, FRes.ok], [0], []⟩, true, 1⟩
        [1, 2, 10]
      = some (.ok 3, ⟨⟨[], [FRes.ok], [], [0, 2, 10]⟩, false, 0⟩) ∧
    (10 : Nat) ∈ [1, 2, 10] ∧
    SIn.content ⟨[], [FRes.ok], [], [0, 2, 10]⟩
      ≠ SIn.content ⟨[WRes.ok 2], [FRes.ok, FRes.ok, FRes.ok], [0], []⟩
          ++ [1, 2, 10].take 3 := by
  refine ⟨?_, ?_, ?_, ?_⟩ <;> decide

/-- Counterexample to C6 as stated: a newline call leaves need_flush set
(its flush is still pending); the next call, whose buffer 7 contains no
newline, resumes that flush, so a call without a newline does invoke the
inner writer's flush: the flush event appears in this call's portion of the
log. -/
theorem lineWriter_no_newline_single_attempt_cex :
    LineWriter.poll_write (traced smach)
        ⟨(⟨[WRes.ok 1, WRes.ok 0], [FRes.pending, FRes.ok], [], []⟩, []),
         false, 0⟩ [10]
      = some (.pending,
          ⟨(⟨[WRes.ok 0], [FRes.ok], [10], []⟩,
            [Ev.w [10] (WRes.ok 1), Ev.f FRes.pending]), true, 1⟩) ∧
    LineWriter.poll_write (traced smach)
        ⟨(⟨[WRes.ok 0], [FRes.ok], [10], []⟩,
          [Ev.w [10] (WRes.ok 1), Ev.f FRes.pending]), true, 1⟩ [7]
      = some (.ok 0,
          ⟨(⟨[], [], [], [10]⟩,
            [Ev.w [10] (WRes.ok 1), Ev.f FRes.pending, Ev.f FRes.ok,
             Ev.w [] (WRes.ok 0)]), true, 0⟩) ∧
    memrchr 10 [7] = none ∧
    Ev.f FRes.ok ∈
      [Ev.w [10] (WRes.ok 1), Ev.f FRes.pending, Ev.f FRes.ok,
       Ev.w [] (WRes.ok 0)].drop 2 := by
  refine ⟨?_, ?_, ?_, ?_⟩ <;> decide

/-- Counterexample to C7 as stated: a call on the buffer 10 hands the full
newline chunk over and suspends in the following flush; re-polling the call
resumes that flush, which completes successfully (every accepted byte is now
durable, the inner buffer is empty, the logged obligation is discharged),
but the resumed line write then suspends, so the call returns pending with
need_flush still true: the flag is set although no newline-terminated chunk
is awaiting its flush. -/
theorem lineWriter_need_flush_flag_sound_cex :
    LineWriter.poll_write (traced smach)
        ⟨(⟨[WRes.ok 1, WRes.pending], [FRes.pending, FRes.ok], [], []⟩, []),
         false, 0⟩ [10]
      = some (.pending,
          ⟨(⟨[WRes.pending], [FRes.ok], [10], []⟩,
            [Ev.w [10] (WRes.ok 1), Ev.f FRes.pending]), true, 1⟩) ∧
    LineWriter.poll_write (traced smach)
        ⟨(⟨[WRes.pending], [FRes.ok], [10], []⟩,
          [Ev.w [10] (WRes.ok 1), Ev.f FRes.pending]), true, 1⟩ [10]
      = some (.pending,
          ⟨(⟨[], [], [], [10]⟩,
            [Ev.w [10] (WRes.ok 1), Ev.f FRes.pending, Ev.f FRes.ok,
             Ev.w [] WRes.pending]), true, 1⟩) ∧
    oblig [Ev.w [10] (WRes.ok 1), Ev.f FRes.pending, Ev.f FRes.ok,
           Ev.w [] WRes.pending] = false ∧
    (⟨[], [], [], [10]⟩ : SIn).buffered = [] := by
  refine ⟨?_, ?_, ?_, ?_⟩ <;> decide

/-! ## C5: the pre-existing flush obligation runs first -/

/-- C5: a poll_write entered with need_flush true resumes the inner flush
before touching the submitted buffer.  If that flush suspends, the whole call
suspends; if it fails, the failure propagates; if it succeeds but the line
write then fails before any byte is accepted, that failure propagates too.
In all three cases need_flush and written are exactly as before the call,
and the log shows that no byte of buf was handed over before the failure. -/
theorem lineWriter_need_flush_first {σ : Type} (M : InnerW σ) (s : σ)
    (l : List Ev) (w : Nat) (buf : List Nat) :
    (∀ s1, M.pollFlush s = (.pending, s1) →
      LineWriter.poll_write (traced M) ⟨(s, l), true, w⟩ buf
        = some (.pending, ⟨(s1, l ++ [Ev.f FRes.pending]), true, w⟩)) ∧
    (∀ s1, M.pollFlush s = (.err, s1) →
      LineWriter.poll_write (traced M) ⟨(s, l), true, w⟩ buf
        = some (.err, ⟨(s1, l ++ [Ev.f FRes.err]), true, w⟩)) ∧
    (∀ s1 i s2, M.pollFlush s = (.ok, s1) → memrchr 10 buf = some i →
      w ≤ i + 1 →
      M.pollWrite s1 (sliceRange buf w (i + 1)) = (.err, s2) →
      LineWriter.poll_write (traced M) ⟨(s, l), true, w⟩ buf
        = some (.err, ⟨(s2, l ++ [Ev.f FRes.ok,
            Ev.w (sliceRange buf w (i + 1)) WRes.err]), true, w⟩)) := by
  refine ⟨?_, ?_, ?_⟩
  · intro s1 hF
    simp [LineWriter.poll_write, traced, hF]
  · intro s1 hF
    simp [LineWriter.poll_write, traced, hF]
  · intro s1 i s2 hF hi hw hW
    simp [LineWriter.poll_write, traced, hF, hi, hw, hW]

/-- Witness for C5: concrete scripted run in which the resumed flush
suspends, leaving need_flush and written untouched. -/
theorem lineWriter_need_flush_first_witness :
    LineWriter.poll_write (traced smach)
        ⟨(⟨[], [FRes.pending], [], []⟩, []), true, 0⟩ [0]
      = some (.pending, ⟨(⟨[], [], [], []⟩, [Ev.f FRes.pending]), true, 0⟩) :=
  (lineWriter_need_flush_first smach ⟨[], [FRes.pending], [], []⟩ [] 0 [0]).1
    ⟨[], [], [], []⟩ (by decide)

/-! ## C3: failed or short newline flush still reports the accepted count -/

/-- C3: in a call whose buffer has its last newline at index i, once the line
write buf[written..=i] completes with m accepted bytes, a failing follow-up
flush, or a successful one with fewer than i+1 total bytes accepted, makes
the call return Ok with the total written+m accepted so far (not an error)
and reset written to zero.  The log shows the one line write starting at the
persisted offset: accepted bytes are neither re-sent nor dropped. -/
theorem lineWriter_flush_fail_or_short_reports_ok {σ : Type} (M : InnerW σ)
    (s : σ) (l : List Ev) (nf : Bool) (w : Nat) (buf : List Nat) (i : Nat)
    (s0 : σ) (l0 : List Ev) (m : Nat) (s1 : σ)
    (h0 : nf = false ∧ s0 = s ∧ l0 = l ∨
      nf = true ∧ M.pollFlush s = (.ok, s0) ∧ l0 = l ++ [Ev.f FRes.ok])
    (hi : memrchr 10 buf = some i)
    (hw : w ≤ i + 1)
    (hline : M.pollWrite s0 (sliceRange buf w (i + 1)) = (.ok m, s1)) :
    (∀ s2, M.pollFlush s1 = (.err, s2) →
      LineWriter.poll_write (traced M) ⟨(s, l), nf, w⟩ buf
        = some (.ok (w + m), ⟨(s2, l0 ++
            [Ev.w (sliceRange buf w (i + 1)) (WRes.ok m), Ev.f FRes.err]),
            true, 0⟩)) ∧
    (∀ s2, M.pollFlush s1 = (.ok, s2) → w + m < i + 1 →
      LineWriter.poll_write (traced M) ⟨(s, l), nf, w⟩ buf
        = some (.ok (w + m), ⟨(s2, l0 ++
            [Ev.w (sliceRange buf w (i + 1)) (WRes.ok m), Ev.f FRes.ok]),
            false, 0⟩)) := by
  constructor
  · intro s2 hfl
    rcases h0 with ⟨hnf, hs0, hl0⟩ | ⟨hnf, hF, hl0⟩
    · subst hnf; subst hs0; subst hl0
      simp [LineWriter.poll_write, traced, hi, hw, hline, hfl]
    · subst hnf; subst hl0
      simp [LineWriter.poll_write, traced, hF, hi, hw, hline, hfl]
  · intro s2 hfl hlt
    have hne : ¬(w + m = i + 1) := Nat.ne_of_lt hlt
    rcases h0 with ⟨hnf, hs0, hl0⟩ | ⟨hnf, hF, hl0⟩
    · subst hnf; subst hs0; subst hl0
      simp [LineWriter.poll_write, traced, hi, hw, hline, hfl, hne]
    · subst hnf; subst hl0
      simp [LineWriter.poll_write, traced, hF, hi, hw, hline, hfl, hne]

/-- Witness for C3: a scripted inner writer accepts the whole line 0,10 and
then fails the flush; the call still returns Ok 1... (accepted count 1 here:
the script accepts one byte, flush fails) with written reset to zero. -/
theorem lineWriter_flush_fail_or_short_reports_ok_witness :
    LineWriter.poll_write (traced smach)
        ⟨(⟨[WRes.ok 1], [FRes.err], [], []⟩, []), false, 0⟩ [0, 10]
      = some (.ok 1, ⟨(⟨[], [], [0], []⟩,
          [Ev.w [0, 10] (WRes.ok 1), Ev.f FRes.err]), true, 0⟩) :=
  (lineWriter_flush_fail_or_short_reports_ok smach
      ⟨[WRes.ok 1], [FRes.err], [], []⟩ [] false 0 [0, 10] 1
      ⟨[WRes.ok 1], [FRes.err], [], []⟩ [] 1 ⟨[], [FRes.err], [0], []⟩
      (Or.inl ⟨rfl, rfl, rfl⟩) (by decide) (by decide) (by decide)).1
    ⟨[], [], [0], []⟩ (by decide)

/-! ## C4: one non-resumable tail attempt after a fully flushed line -/

/-- C4: in a call whose buffer has its last newline at index i, when the
follow-up flush succeeds and exactly i+1 bytes have been accepted, the call
makes exactly one extra attempt to forward buf[i+1..] (a single write event
in the log, never re-polled).  If that attempt returns Ok k the call returns
Ok (i+1+k); if it fails or suspends the call still returns Ok (i+1).  In all
three cases written is reset to zero and the unconsumed remainder is not
counted. -/
theorem lineWriter_tail_attempt_after_full_line {σ : Type} (M : InnerW σ)
    (s : σ) (l : List Ev) (nf : Bool) (w : Nat) (buf : List Nat) (i : Nat)
    (s0 : σ) (l0 : List Ev) (m : Nat) (s1 s2 : σ)
    (h0 : nf = false ∧ s0 = s ∧ l0 = l ∨
      nf = true ∧ M.pollFlush s = (.ok, s0) ∧ l0 = l ++ [Ev.f FRes.ok])
    (hi : memrchr 10 buf = some i)
    (hw : w ≤ i + 1)
    (hline : M.pollWrite s0 (sliceRange buf w (i + 1)) = (.ok m, s1))
    (hall : w + m = i + 1)
    (hfl : M.pollFlush s1 = (.ok, s2)) :
    (∀ k s3, M.pollWrite s2 (buf.drop (i + 1)) = (.ok k, s3) →
      LineWriter.poll_write (traced M) ⟨(s, l), nf, w⟩ buf
        = some (.ok (i + 1 + k), ⟨(s3, l0 ++
            [Ev.w (sliceRange buf w (i + 1)) (WRes.ok m), Ev.f FRes.ok,
             Ev.w (buf.drop (i + 1)) (WRes.ok k)]), false, 0⟩)) ∧
    (∀ s3, M.pollWrite s2 (buf.drop (i + 1)) = (.err, s3) →
      LineWriter.poll_write (traced M) ⟨(s, l), nf, w⟩ buf
        = some (.ok (i + 1), ⟨(s3, l0 ++
            [Ev.w (sliceRange buf w (i + 1)) (WRes.ok m), Ev.f FRes.ok,
             Ev.w (buf.drop (i + 1)) WRes.err]), false, 0⟩)) ∧
    (∀ s3, M.pollWrite s2 (buf.drop (i + 1)) = (.pending, s3) →
      LineWriter.poll_write (traced M) ⟨(s, l), nf, w⟩ buf
        = some (.ok (i + 1), ⟨(s3, l0 ++
            [Ev.w (sliceRange buf w (i + 1)) (WRes.ok m), Ev.f FRes.ok,
             Ev.w (buf.drop (i + 1)) WRes.pending]), false, 0⟩)) := by
  refine ⟨?_, ?_, ?_⟩ <;> intro a
  case _ =>
    intro s3 hT
    rcases h0 with ⟨hnf, hs0, hl0⟩ | ⟨hnf, hF, hl0⟩
    · subst hnf; subst hs0; subst hl0
      simp [LineWriter.poll_write, traced, hi, hw, hline, hfl, hall, hT]
    · subst hnf; subst hl0
      simp [LineWriter.poll_write, traced, hF, hi, hw, hline, hfl, hall, hT]
  case _ =>
    intro hT
    rcases h0 with ⟨hnf, hs0, hl0⟩ | ⟨hnf, hF, hl0⟩
    · subst hnf; subst hs0; subst hl0
      simp [LineWriter.poll_write, traced, hi, hw, hline, hfl, hall, hT]
    · subst hnf; subst hl0
      simp [LineWriter.poll_write, traced, hF, hi, hw, hline, hfl, hall, hT]
  case _ =>
    intro hT
    rcases h0 with ⟨hnf, hs0, hl0⟩ | ⟨hnf, hF, hl0⟩
    · subst hnf; subst hs0; subst hl0
      simp [LineWriter.poll_write, traced, hi, hw, hline, hfl, hall, hT]
    · subst hnf; subst hl0
      simp [LineWriter.poll_write, traced, hF, hi, hw, hline, hfl, hall, hT]

/-- Witness for C4: the line 0,10 of the buffer 0,10,3 is accepted and
flushed in full, the tail 3 is accepted by the one extra attempt, and the
call returns Ok 3. -/
theorem lineWriter_tail_attempt_after_full_line_witness :
    LineWriter.poll_write (traced smach)
        ⟨(⟨[WRes.ok 2, WRes.ok 1], [FRes.ok, FRes.ok], [], []⟩, []),
         false, 0⟩ [0, 10, 3]
      = some (.ok 3, ⟨(⟨[], [FRes.ok], [3], [0, 10]⟩,
          [Ev.w [0, 10] (WRes.ok 2), Ev.f FRes.ok, Ev.w [3] (WRes.ok 1)]),
          false, 0⟩) :=
  (lineWriter_tail_attempt_after_full_line smach
      ⟨[WRes.ok 2, WRes.ok 1], [FRes.ok, FRes.ok], [], []⟩ [] false 0
      [0, 10, 3] 1 ⟨[WRes.ok 2, WRes.ok 1], [FRes.ok, FRes.ok], [], []⟩ []
      2 ⟨[WRes.ok 1], [FRes.ok, FRes.ok], [0, 10], []⟩
      ⟨[WRes.ok 1], [FRes.ok], [], [0, 10]⟩
      (Or.inl ⟨rfl, rfl, rfl⟩) (by decide) (by decide) (by decide)
      (by decide) (by decide)).1
    1 ⟨[], [FRes.ok], [3], [0, 10]⟩ (by decide)

/-! ## C6 (amended): a no-newline call makes a single write attempt -/

/-- C6 as amended: a poll_write call whose buffer contains no newline
forwards buf[written..] to the inner writer in a single attempt, returns
whatever count that attempt reports, resets written to zero on completion
and leaves need_flush untouched; apart from resuming the pre-existing inner
flush when entered with need_flush set, it never calls the inner writer's
flush during the call (the log gains at most that one flush event followed
by exactly one write event). -/
theorem lineWriter_no_newline_single_attempt {σ : Type} (M : InnerW σ)
    (s : σ) (l : List Ev) (nf : Bool) (w : Nat) (buf : List Nat)
    (s0 : σ) (l0 : List Ev)
    (h0 : nf = false ∧ s0 = s ∧ l0 = l ∨
      nf = true ∧ M.pollFlush s = (.ok, s0) ∧ l0 = l ++ [Ev.f FRes.ok])
    (hnl : memrchr 10 buf = none)
    (hw : w ≤ buf.length) :
    (∀ s1, M.pollWrite s0 (buf.drop w) = (.pending, s1) →
      LineWriter.poll_write (traced M) ⟨(s, l), nf, w⟩ buf
        = some (.pending,
            ⟨(s1, l0 ++ [Ev.w (buf.drop w) WRes.pending]), nf, w⟩)) ∧
    (∀ s1, M.pollWrite s0 (buf.drop w) = (.err, s1) →
      LineWriter.poll_write (traced M) ⟨(s, l), nf, w⟩ buf
        = some (.err, ⟨(s1, l0 ++ [Ev.w (buf.drop w) WRes.err]), nf, w⟩)) ∧
    (∀ n s1, M.pollWrite s0 (buf.drop w) = (.ok n, s1) →
      LineWriter.poll_write (traced M) ⟨(s, l), nf, w⟩ buf
        = some (.ok n, ⟨(s1, l0 ++ [Ev.w (buf.drop w) (WRes.ok n)]), nf, 0⟩)) := by
  refine ⟨?_, ?_, ?_⟩
  · intro s1 hW
    rcases h0 with ⟨hnf, hs0, hl0⟩ | ⟨hnf, hF, hl0⟩
    · subst hnf; subst hs0; subst hl0
      simp [LineWriter.poll_write, traced, hnl, hw, hW]
    · subst hnf; subst hl0
      simp [LineWriter.poll_write, traced, hF, hnl, hw, hW]
  · intro s1 hW
    rcases h0 with ⟨hnf, hs0, hl0⟩ | ⟨hnf, hF, hl0⟩
    · subst hnf; subst hs0; subst hl0
      simp [LineWriter.poll_write, traced, hnl, hw, hW]
    · subst hnf; subst hl0
      simp [LineWriter.poll_write, traced, hF, hnl, hw, hW]
  · intro n s1 hW
    rcases h0 with ⟨hnf, hs0, hl0⟩ | ⟨hnf, hF, hl0⟩
    · subst hnf; subst hs0; subst hl0
      simp [LineWriter.poll_write, traced, hnl, hw, hW]
    · subst hnf; subst hl0
      simp [LineWriter.poll_write, traced, hF, hnl, hw, hW]

/-- Witness for C6: a no-newline buffer 4,5 is forwarded in one attempt and
the returned count is the inner writer's count; no flush event is logged. -/
theorem lineWriter_no_newline_single_attempt_witness :
    LineWriter.poll_write (traced smach)
        ⟨(⟨[WRes.ok 2], [], [], []⟩, []), false, 0⟩ [4, 5]
      = some (.ok 2,
          ⟨(⟨[], [], [4, 5], []⟩, [Ev.w [4, 5] (WRes.ok 2)]), false, 0⟩) :=
  (lineWriter_no_newline_single_attempt smach ⟨[WRes.ok 2], [], [], []⟩ []
      false 0 [4, 5] ⟨[WRes.ok 2], [], [], []⟩ []
      (Or.inl ⟨rfl, rfl, rfl⟩) (by decide) (by decide)).2.2
    2 ⟨[], [], [4, 5], []⟩ (by decide)

/-! ## C1: byte accounting across the suspensions of one logical call -/

/-- A pending poll of poll_write preserves the accounting invariant of the
logical call: the inner content equals the content at the start of the call
plus the first written bytes of the call's buffer. -/
theorem poll_write_pending_preserves {σ : Type} (M : InnerW σ)
    (content : σ → List Nat) (hwf : WfInner M content)
    (buf C0 : List Nat) (st st' : LineWriter σ)
    (hst : LineWriter.poll_write M st buf = some (.pending, st'))
    (hc : content st.inner = C0 ++ buf.take st.written) :
    content st'.inner = C0 ++ buf.take st'.written := by
  unfold LineWriter.poll_write at hst
  simp only at hst
  have main : ∀ sF : σ, content sF = content st.inner →
      (match memrchr 10 buf with
        | none =>
          if st.written ≤ buf.length then
            match M.pollWrite sF (buf.drop st.written) with
            | (.pending, s1) => some (.pending, ⟨s1, st.need_flush, st.written⟩)
            | (.err, s1) => some (.err, ⟨s1, st.need_flush, st.written⟩)
            | (.ok n, s1) => some (.ok n, ⟨s1, st.need_flush, 0⟩)
          else none
        | some i =>
          if st.written ≤ i + 1 then
            match M.pollWrite sF (sliceRange buf st.written (i + 1)) with
            | (.pending, s1) => some (.pending, ⟨s1, st.need_flush, st.written⟩)
            | (.err, s1) => some (.err, ⟨s1, st.need_flush, st.written⟩)
            | (.ok m, s1) =>
              match M.pollFlush s1 with
              | (.pending, s2) => some (.pending, ⟨s2, true, st.written + m⟩)
              | (.err, s2) => some (.ok (st.written + m), ⟨s2, true, 0⟩)
              | (.ok, s2) =>
                if st.written + m = i + 1 then
                  match M.pollWrite s2 (buf.drop (i + 1)) with
                  | (.ok k, s3) => some (.ok (st.written + m + k), ⟨s3, false, 0⟩)
                  | (.err, s3) => some (.ok (st.written + m), ⟨s3, false, 0⟩)
                  | (.pending, s3) => some (.ok (st.written + m), ⟨s3, false, 0⟩)
                else some (.ok (st.written + m), ⟨s2, false, 0⟩)
          else none
        : Option (PollR Nat × LineWriter σ)) = some (.pending, st') →
      content st'.inner = C0 ++ buf.take st'.written := by
    intro sF hsF hst
    cases hmr : memrchr 10 buf with
    | none =>
      simp only [hmr] at hst
      split at hst
      case isTrue hwlen =>
        rcases hW : M.pollWrite sF (buf.drop st.written) with ⟨wr, sW⟩
        cases wr
        case pending =>
          simp only [hW] at hst
          obtain rfl : (⟨sW, st.need_flush, st.written⟩ : LineWriter σ) = st' := by
            simpa using hst
          have hp := hwf.write_pending _ _ _ hW
          simp only [hp, hsF]
          exact hc
        case err => simp only [hW] at hst; simp at hst
        case ok n => simp only [hW] at hst; simp at hst
      case isFalse hwlen => simp at hst
    | some i =>
      simp only [hmr] at hst
      split at hst
      case isTrue hw =>
        rcases hW : M.pollWrite sF (sliceRange buf st.written (i + 1)) with ⟨wr, sW⟩
        cases wr
        case pending =>
          simp only [hW] at hst
          obtain rfl : (⟨sW, st.need_flush, st.written⟩ : LineWriter σ) = st' := by
            simpa using hst
          have hp := hwf.write_pending _ _ _ hW
          simp only [hp, hsF]
          exact hc
        case err => simp only [hW] at hst; simp at hst
        case ok m =>
          simp only [hW] at hst
          rcases hF2 : M.pollFlush sW with ⟨fr2, s2⟩
          cases fr2
          case pending =>
            simp only [hF2] at hst
            obtain rfl : (⟨s2, true, st.written + m⟩ : LineWriter σ) = st' := by
              simpa using hst
            have hk := hwf.flush_keep _ _ _ hF2
            have hwr := hwf.write_ok _ _ _ _ hW
            have hi : i < buf.length := memrchr_lt_length hmr
            have hm : m ≤ i + 1 - st.written := by
              have h1 := hwr.1
              rwa [length_sliceRange hw (by omega)] at h1
            simp only [hk, hwr.2, hsF, hc]
            rw [List.append_assoc, take_append_slice_take hw hi hm]
          case err => simp only [hF2] at hst; simp at hst
          case ok =>
            simp only [hF2] at hst
            split at hst
            case isTrue htot =>
              rcases hT : M.pollWrite s2 (buf.drop (i + 1)) with ⟨tr, s3⟩
              cases tr <;> simp only [hT] at hst <;> simp at hst
            case isFalse htot => simp at hst
      case isFalse hw => simp at hst
  split at hst
  case isTrue hnf =>
    rcases hF : M.pollFlush st.inner with ⟨fr, sF⟩
    cases fr
    case pending =>
      simp only [hF] at hst
      obtain rfl : (⟨sF, st.need_flush, st.written⟩ : LineWriter σ) = st' := by
        simpa using hst
      simpa [hwf.flush_keep _ _ _ hF] using hc
    case err => simp only [hF] at hst; simp at hst
    case ok =>
      simp only [hF] at hst
      exact main sF (hwf.flush_keep _ _ _ hF) hst
  case isFalse hnf => exact main st.inner rfl hst

/-- A completing poll of poll_write on a newline-containing buffer turns the
accounting invariant into the final accounting: the inner content equals the
base content plus exactly the first n bytes of the buffer, and written is
reset to zero. -/
theorem poll_write_ok_content {σ : Type} (M : InnerW σ)
    (content : σ → List Nat) (hwf : WfInner M content)
    (buf C0 : List Nat) (h10 : (10 : Nat) ∈ buf) (st st' : LineWriter σ)
    (n : Nat)
    (hst : LineWriter.poll_write M st buf = some (.ok n, st'))
    (hc : content st.inner = C0 ++ buf.take st.written) :
    content st'.inner = C0 ++ buf.take n ∧ st'.written = 0 := by
  obtain ⟨i, hmr⟩ : ∃ i, memrchr 10 buf = some i := by
    cases hmr : memrchr 10 buf with
    | none => exact absurd h10 ((memrchr_eq_none_iff 10 buf).mp hmr)
    | some i => exact ⟨i, rfl⟩
  unfold LineWriter.poll_write at hst
  simp only at hst
  have main : ∀ sF : σ, content sF = content st.inner →
      (match memrchr 10 buf with
        | none =>
          if st.written ≤ buf.length then
            match M.pollWrite sF (buf.drop st.written) with
            | (.pending, s1) => some (.pending, ⟨s1, st.need_flush, st.written⟩)
            | (.err, s1) => some (.err, ⟨s1, st.need_flush, st.written⟩)
            | (.ok n, s1) => some (.ok n, ⟨s1, st.need_flush, 0⟩)
          else none
        | some i =>
          if st.written ≤ i + 1 then
            match M.pollWrite sF (sliceRange buf st.written (i + 1)) with
            | (.pending, s1) => some (.pending, ⟨s1, st.need_flush, st.written⟩)
            | (.err, s1) => some (.err, ⟨s1, st.need_flush, st.written⟩)
            | (.ok m, s1) =>
              match M.pollFlush s1 with
              | (.pending, s2) => some (.pending, ⟨s2, true, st.written + m⟩)
              | (.err, s2) => some (.ok (st.written + m), ⟨s2, true, 0⟩)
              | (.ok, s2) =>
                if st.written + m = i + 1 then
                  match M.pollWrite s2 (buf.drop (i + 1)) with
                  | (.ok k, s3) => some (.ok (st.written + m + k), ⟨s3, false, 0⟩)
                  | (.err, s3) => some (.ok (st.written + m), ⟨s3, false, 0⟩)
                  | (.pending, s3) => some (.ok (st.written + m), ⟨s3, false, 0⟩)
                else some (.ok (st.written + m), ⟨s2, false, 0⟩)
          else none
        : Option (PollR Nat × LineWriter σ)) = some (.ok n, st') →
      content st'.inner = C0 ++ buf.take n ∧ st'.written = 0 := by
    intro sF hsF hst
    simp only [hmr] at hst
    split at hst
    case isTrue hw =>
      rcases hW : M.pollWrite sF (sliceRange buf st.written (i + 1)) with ⟨wr, sW⟩
      cases wr
      case pending => simp only [hW] at hst; simp at hst
      case err => simp only [hW] at hst; simp at hst
      case ok m =>
        simp only [hW] at hst
        have hwr := hwf.write_ok _ _ _ _ hW
        have hi : i < buf.length := memrchr_lt_length hmr
        have hm : m ≤ i + 1 - st.written := by
          have h1 := hwr.1
          rwa [length_sliceRange hw (by omega)] at h1
        have hcw : content sW = C0 ++ buf.take (st.written + m) := by
          rw [hwr.2, hsF, hc, List.append_assoc,
            take_append_slice_take hw hi hm]
        rcases hF2 : M.pollFlush sW with ⟨fr2, s2⟩
        cases fr2
        case pending => simp only [hF2] at hst; simp at hst
        case err =>
          simp only [hF2, Option.some.injEq, Prod.mk.injEq,
            PollR.ok.injEq] at hst
          obtain ⟨rfl, rfl⟩ := hst
          refine ⟨?_, rfl⟩
          rw [hwf.flush_keep _ _ _ hF2, hcw]
        case ok =>
          simp only [hF2] at hst
          have hc2 : content s2 = C0 ++ buf.take (st.written + m) := by
            rw [hwf.flush_keep _ _ _ hF2, hcw]
          split at hst
          case isTrue htot =>
            rcases hT : M.pollWrite s2 (buf.drop (i + 1)) with ⟨tr, s3⟩
            cases tr
            case pending =>
              simp only [hT, Option.some.injEq, Prod.mk.injEq,
                PollR.ok.injEq] at hst
              obtain ⟨rfl, rfl⟩ := hst
              refine ⟨?_, rfl⟩
              rw [hwf.write_pending _ _ _ hT, hc2]
            case err =>
              simp only [hT, Option.some.injEq, Prod.mk.injEq,
                PollR.ok.injEq] at hst
              obtain ⟨rfl, rfl⟩ := hst
              refine ⟨?_, rfl⟩
              rw [hwf.write_err _ _ _ hT, hc2]
            case ok k =>
              simp only [hT, Option.some.injEq, Prod.mk.injEq,
                PollR.ok.injEq] at hst
              obtain ⟨rfl, rfl⟩ := hst
              refine ⟨?_, rfl⟩
              have ht := hwf.write_ok _ _ _ _ hT
              rw [ht.2, hc2, htot, List.append_assoc, ← List.take_add]
          case isFalse htot =>
            simp only [Option.some.injEq, Prod.mk.injEq,
              PollR.ok.injEq] at hst
            obtain ⟨rfl, rfl⟩ := hst
            exact ⟨hc2, rfl⟩
    case isFalse hw => simp at hst
  split at hst
  case isTrue hnf =>
    rcases hF : M.pollFlush st.inner with ⟨fr, sF⟩
    cases fr
    case pending => simp only [hF] at hst; simp at hst
    case err => simp only [hF] at hst; simp at hst
    case ok =>
      simp only [hF] at hst
      exact main sF (hwf.flush_keep _ _ _ hF) hst
  case isFalse hnf => exact main st.inner rfl hst

/-- Every scripted inner writer satisfies the inner-writer contract with
observer SIn.content. -/
theorem wf_smach : WfInner smach SIn.content := by
  constructor
  · intro s buf n s' h
    rcases s with ⟨ws, fs, b, f⟩
    cases ws with
    | nil => simp [smach] at h
    | cons r rest =>
      cases r with
      | pending => simp [smach] at h
      | err => simp [smach] at h
      | ok k =>
        simp only [smach, Prod.mk.injEq, WRes.ok.injEq] at h
        obtain ⟨rfl, rfl⟩ := h
        refine ⟨min_le_right _ _, ?_⟩
        simp [SIn.content, List.append_assoc]
  · intro s buf s' h
    rcases s with ⟨ws, fs, b, f⟩
    cases ws with
    | nil =>
      simp only [smach] at h
      injection h with h1 h2
      subst h2
      rfl
    | cons r rest =>
      cases r with
      | pending =>
        simp only [smach] at h
        injection h with h1 h2
        subst h2
        rfl
      | err => simp [smach] at h
      | ok k => simp [smach] at h
  · intro s buf s' h
    rcases s with ⟨ws, fs, b, f⟩
    cases ws with
    | nil => simp [smach] at h
    | cons r rest =>
      cases r with
      | pending => simp [smach] at h
      | err =>
        simp only [smach] at h
        injection h with h1 h2
        subst h2
        rfl
      | ok k => simp [smach] at h
  · intro s r s' h
    rcases s with ⟨ws, fs, b, f⟩
    cases fs with
    | nil =>
      simp only [smach] at h
      injection h with h1 h2
      subst h2
      rfl
    | cons q rest =>
      cases q with
      | pending =>
        simp only [smach] at h
        injection h with h1 h2
        subst h2
        rfl
      | err =>
        simp only [smach] at h
        injection h with h1 h2
        subst h2
        rfl
      | ok =>
        simp only [smach] at h
        injection h with h1 h2
        subst h2
        simp [SIn.content]

/-- C1 as amended: for every logical write call (a chain of pending polls of
poll_write with one buffer, closed by a completing poll) that begins with the
resumption offset written = 0 and whose buffer contains a newline byte,
completion with Ok n means the inner writer's total content (buffered plus
flushed) equals the content before the call plus exactly the first n bytes of
the buffer: no byte is double-counted or dropped across the suspensions of
the call.  The offset hypothesis is forced by the counterexample: it holds
unless an earlier call was abandoned or failed while suspended mid-line and a
different buffer was then submitted. -/
theorem lineWriter_newline_call_accounting {σ : Type} (M : InnerW σ)
    (content : σ → List Nat) (hwf : WfInner M content)
    (buf : List Nat) (h10 : (10 : Nat) ∈ buf)
    (st0 stl st' : LineWriter σ) (n : Nat)
    (hw0 : st0.written = 0)
    (hch : WriteChain M buf st0 stl)
    (hok : LineWriter.poll_write M stl buf = some (.ok n, st')) :
    content st'.inner = content st0.inner ++ buf.take n ∧ st'.written = 0 := by
  have hinv : ∀ st st2, WriteChain M buf st st2 →
      content st.inner = content st0.inner ++ buf.take st.written →
      content st2.inner = content st0.inner ++ buf.take st2.written := by
    intro st st2 hch2
    induction hch2 with
    | last st => exact id
    | more st st1 st2 hp _ ih =>
      intro h
      exact ih (poll_write_pending_preserves M content hwf buf _ st st1 hp h)
  have hbase : content st0.inner = content st0.inner ++ buf.take st0.written := by
    rw [hw0]
    simp
  exact poll_write_ok_content M content hwf buf _ h10 stl st' n hok
    (hinv st0 stl hch hbase)

/-- Witness for C1: a one-poll call on the buffer 10 over a scripted inner
writer that accepts the byte and flushes it; the content afterwards is
exactly the accepted byte. -/
theorem lineWriter_newline_call_accounting_witness :
    SIn.content (⟨[], [], [], [10]⟩ : SIn)
      = SIn.content (⟨[WRes.ok 1], [FRes.ok], [], []⟩ : SIn)
          ++ [10].take 1 ∧
    (⟨⟨[], [], [], [10]⟩, false, 0⟩ : LineWriter SIn).written = 0 :=
  lineWriter_newline_call_accounting smach SIn.content wf_smach
    [10] (by decide) ⟨⟨[WRes.ok 1], [FRes.ok], [], []⟩, false, 0⟩
    ⟨⟨[WRes.ok 1], [FRes.ok], [], []⟩, false, 0⟩
    ⟨⟨[], [], [], [10]⟩, false, 0⟩ 1 rfl
    (WriteChain.last _) (by decide)

/-! ## C7: soundness of the need_flush flag -/

/-- One completed poll of poll_write preserves soundness of the need_flush
flag: if after the poll the log still records an undischarged
newline-obligation, the flag is set. -/
theorem poll_write_oblig_step {σ : Type} (M : InnerW σ)
    (st : LineWriter (σ × List Ev)) (buf : List Nat) (r : PollR Nat)
    (st' : LineWriter (σ × List Ev))
    (hp : LineWriter.poll_write (traced M) st buf = some (r, st'))
    (hl : oblig st.inner.2 = true → st.need_flush = true) :
    oblig st'.inner.2 = true → st'.need_flush = true := by
  intro hob
  unfold LineWriter.poll_write at hp
  simp only at hp
  split at hp
  case isTrue hnf =>
    rcases hF : M.pollFlush st.inner.1 with ⟨fr, sF⟩
    have hFt : (traced M).pollFlush st.inner
        = (fr, (sF, st.inner.2 ++ [Ev.f fr])) := by
      simp [traced, hF]
    cases fr
    case pending =>
      simp only [hFt, Option.some.injEq, Prod.mk.injEq] at hp
      obtain ⟨rfl, rfl⟩ := hp
      exact hnf
    case err =>
      simp only [hFt, Option.some.injEq, Prod.mk.injEq] at hp
      obtain ⟨rfl, rfl⟩ := hp
      exact hnf
    case ok =>
      simp only [hFt] at hp
      have hol : oblig (st.inner.2 ++ [Ev.f FRes.ok]) = false := by simp [oblig_append, obStep]
      cases hmr : memrchr 10 buf with
      | none =>
        simp only [hmr] at hp
        split at hp
        case isTrue hwlen =>
          have h10 : (10 : Nat) ∉ buf.drop st.written := fun hm =>
            (memrchr_eq_none_iff 10 buf).mp hmr (List.drop_subset _ _ hm)
          rcases hW : M.pollWrite (sF) (buf.drop st.written) with ⟨wr, sW⟩
          have hWt : (traced M).pollWrite (sF, (st.inner.2 ++ [Ev.f FRes.ok])) (buf.drop st.written)
              = (wr, (sW, (st.inner.2 ++ [Ev.f FRes.ok]) ++ [Ev.w (buf.drop st.written) wr])) := by
            simp [traced, hW]
          cases wr
          case pending =>
            simp only [hWt, Option.some.injEq, Prod.mk.injEq] at hp
            obtain ⟨rfl, rfl⟩ := hp
            simp only [oblig_append, obStep, hol] at hob
            exact absurd hob (by simp)
          case err =>
            simp only [hWt, Option.some.injEq, Prod.mk.injEq] at hp
            obtain ⟨rfl, rfl⟩ := hp
            simp only [oblig_append, obStep, hol] at hob
            exact absurd hob (by simp)
          case ok n =>
            simp only [hWt, Option.some.injEq, Prod.mk.injEq] at hp
            obtain ⟨rfl, rfl⟩ := hp
            have hcond := take_getLast?_ne_of_not_mem (n := n) h10
            simp only [oblig_append, obStep, if_neg hcond, hol] at hob
            exact absurd hob (by simp)
        case isFalse hwlen => simp at hp
      | some i =>
        simp only [hmr] at hp
        split at hp
        case isTrue hw =>
          rcases hW : M.pollWrite (sF) (sliceRange buf st.written (i + 1)) with ⟨wr, sW⟩
          have hWt : (traced M).pollWrite (sF, (st.inner.2 ++ [Ev.f FRes.ok])) (sliceRange buf st.written (i + 1))
              = (wr, (sW, (st.inner.2 ++ [Ev.f FRes.ok]) ++ [Ev.w (sliceRange buf st.written (i + 1)) wr])) := by
            simp [traced, hW]
          cases wr
          case pending =>
            simp only [hWt, Option.some.injEq, Prod.mk.injEq] at hp
            obtain ⟨rfl, rfl⟩ := hp
            simp only [oblig_append, obStep, hol] at hob
            exact absurd hob (by simp)
          case err =>
            simp only [hWt, Option.some.injEq, Prod.mk.injEq] at hp
            obtain ⟨rfl, rfl⟩ := hp
            simp only [oblig_append, obStep, hol] at hob
            exact absurd hob (by simp)
          case ok m =>
            simp only [hWt] at hp
            rcases hF2 : M.pollFlush sW with ⟨fr2, s2⟩
            have hF2t : (traced M).pollFlush
                (sW, (st.inner.2 ++ [Ev.f FRes.ok]) ++ [Ev.w (sliceRange buf st.written (i + 1)) (WRes.ok m)])
                = (fr2, (s2, ((st.inner.2 ++ [Ev.f FRes.ok]) ++ [Ev.w (sliceRange buf st.written (i + 1)) (WRes.ok m)])
                    ++ [Ev.f fr2])) := by
              simp [traced, hF2]
            cases fr2
            case pending =>
              simp only [hF2t, Option.some.injEq, Prod.mk.injEq] at hp
              obtain ⟨rfl, rfl⟩ := hp
              rfl
            case err =>
              simp only [hF2t, Option.some.injEq, Prod.mk.injEq] at hp
              obtain ⟨rfl, rfl⟩ := hp
              rfl
            case ok =>
              simp only [hF2t] at hp
              have hnotail : (10 : Nat) ∉ buf.drop (i + 1) := memrchr_not_mem_drop hmr
              split at hp
              case isTrue htot =>
                rcases hT : M.pollWrite s2 (buf.drop (i + 1)) with ⟨tr, s3⟩
                have hTt : (traced M).pollWrite
                    (s2, (((st.inner.2 ++ [Ev.f FRes.ok]) ++ [Ev.w (sliceRange buf st.written (i + 1)) (WRes.ok m)])
                      ++ [Ev.f FRes.ok])) (buf.drop (i + 1))
                    = (tr, (s3, ((((st.inner.2 ++ [Ev.f FRes.ok]) ++ [Ev.w (sliceRange buf st.written (i + 1)) (WRes.ok m)])
                        ++ [Ev.f FRes.ok]) ++ [Ev.w (buf.drop (i + 1)) tr]))) := by
                  simp [traced, hT]
                cases tr
                case ok k =>
                  simp only [hTt, Option.some.injEq, Prod.mk.injEq] at hp
                  obtain ⟨rfl, rfl⟩ := hp
                  have hcond := take_getLast?_ne_of_not_mem (n := k) hnotail
                  simp only [oblig_append, obStep, if_neg hcond] at hob
                  exact absurd hob (by simp)
                case err =>
                  simp only [hTt, Option.some.injEq, Prod.mk.injEq] at hp
                  obtain ⟨rfl, rfl⟩ := hp
                  simp only [oblig_append, obStep] at hob
                  exact absurd hob (by simp)
                case pending =>
                  simp only [hTt, Option.some.injEq, Prod.mk.injEq] at hp
                  obtain ⟨rfl, rfl⟩ := hp
                  simp only [oblig_append, obStep] at hob
                  exact absurd hob (by simp)
              case isFalse htot =>
                simp only [Option.some.injEq, Prod.mk.injEq] at hp
                obtain ⟨rfl, rfl⟩ := hp
                simp only [oblig_append, obStep] at hob
                exact absurd hob (by simp)
        case isFalse hw => simp at hp
  case isFalse hnf =>
    have hpair : st.inner = (st.inner.1, st.inner.2) := rfl
    rw [hpair] at hp
    have hol : oblig (st.inner.2) = false := by
          cases holb : oblig st.inner.2 with
          | false => rfl
          | true => exact absurd (hl holb) hnf
    cases hmr : memrchr 10 buf with
    | none =>
      simp only [hmr] at hp
      split at hp
      case isTrue hwlen =>
        have h10 : (10 : Nat) ∉ buf.drop st.written := fun hm =>
          (memrchr_eq_none_iff 10 buf).mp hmr (List.drop_subset _ _ hm)
        rcases hW : M.pollWrite (st.inner.1) (buf.drop st.written) with ⟨wr, sW⟩
        have hWt : (traced M).pollWrite (st.inner.1, (st.inner.2)) (buf.drop st.written)
            = (wr, (sW, (st.inner.2) ++ [Ev.w (buf.drop st.written) wr])) := by
          simp [traced, hW]
        cases wr
        case pending =>
          simp only [hWt, Option.some.injEq, Prod.mk.injEq] at hp
          obtain ⟨rfl, rfl⟩ := hp
          simp only [oblig_append, obStep, hol] at hob
          exact absurd hob (by simp)
        case err =>
          simp only [hWt, Option.some.injEq, Prod.mk.injEq] at hp
          obtain ⟨rfl, rfl⟩ := hp
          simp only [oblig_append, obStep, hol] at hob
          exact absurd hob (by simp)
        case ok n =>
          simp only [hWt, Option.some.injEq, Prod.mk.injEq] at hp
          obtain ⟨rfl, rfl⟩ := hp
          have hcond := take_getLast?_ne_of_not_mem (n := n) h10
          simp only [oblig_append, obStep, if_neg hcond, hol] at hob
          exact absurd hob (by simp)
      case isFalse hwlen => simp at hp
    | some i =>
      simp only [hmr] at hp
      split at hp
      case isTrue hw =>
        rcases hW : M.pollWrite (st.inner.1) (sliceRange buf st.written (i + 1)) with ⟨wr, sW⟩
        have hWt : (traced M).pollWrite (st.inner.1, (st.inner.2)) (sliceRange buf st.written (i + 1))
            = (wr, (sW, (st.inner.2) ++ [Ev.w (sliceRange buf st.written (i + 1)) wr])) := by
          simp [traced, hW]
        cases wr
        case pending =>
          simp only [hWt, Option.some.injEq, Prod.mk.injEq] at hp
          obtain ⟨rfl, rfl⟩ := hp
          simp only [oblig_append, obStep, hol] at hob
          exact absurd hob (by simp)
        case err =>
          simp only [hWt, Option.some.injEq, Prod.mk.injEq] at hp
          obtain ⟨rfl, rfl⟩ := hp
          simp only [oblig_append, obStep, hol] at hob
          exact absurd hob (by simp)
        case ok m =>
          simp only [hWt] at hp
          rcases hF2 : M.pollFlush sW with ⟨fr2, s2⟩
          have hF2t : (traced M).pollFlush
              (sW, (st.inner.2) ++ [Ev.w (sliceRange buf st.written (i + 1)) (WRes.ok m)])
              = (fr2, (s2, ((st.inner.2) ++ [Ev.w (sliceRange buf st.written (i + 1)) (WRes.ok m)])
                  ++ [Ev.f fr2])) := by
            simp [traced, hF2]
          cases fr2
          case pending =>
            simp only [hF2t, Option.some.injEq, Prod.mk.injEq] at hp
            obtain ⟨rfl, rfl⟩ := hp
            rfl
          case err =>
            simp only [hF2t, Option.some.injEq, Prod.mk.injEq] at hp
            obtain ⟨rfl, rfl⟩ := hp
            rfl
          case ok =>
            simp only [hF2t] at hp
            have hnotail : (10 : Nat) ∉ buf.drop (i + 1) := memrchr_not_mem_drop hmr
            split at hp
            case isTrue htot =>
              rcases hT : M.pollWrite s2 (buf.drop (i + 1)) with ⟨tr, s3⟩
              have hTt : (traced M).pollWrite
                  (s2, (((st.inner.2) ++ [Ev.w (sliceRange buf st.written (i + 1)) (WRes.ok m)])
                    ++ [Ev.f FRes.ok])) (buf.drop (i + 1))
                  = (tr, (s3, ((((st.inner.2) ++ [Ev.w (sliceRange buf st.written (i + 1)) (WRes.ok m)])
                      ++ [Ev.f FRes.ok]) ++ [Ev.w (buf.drop (i + 1)) tr]))) := by
                simp [traced, hT]
              cases tr
              case ok k =>
                simp only [hTt, Option.some.injEq, Prod.mk.injEq] at hp
                obtain ⟨rfl, rfl⟩ := hp
                have hcond := take_getLast?_ne_of_not_mem (n := k) hnotail
                simp only [oblig_append, obStep, if_neg hcond] at hob
                exact absurd hob (by simp)
              case err =>
                simp only [hTt, Option.some.injEq, Prod.mk.injEq] at hp
                obtain ⟨rfl, rfl⟩ := hp
                simp only [oblig_append, obStep] at hob
                exact absurd hob (by simp)
              case pending =>
                simp only [hTt, Option.some.injEq, Prod.mk.injEq] at hp
                obtain ⟨rfl, rfl⟩ := hp
                simp only [oblig_append, obStep] at hob
                exact absurd hob (by simp)
            case isFalse htot =>
              simp only [Option.some.injEq, Prod.mk.injEq] at hp
              obtain ⟨rfl, rfl⟩ := hp
              simp only [oblig_append, obStep] at hob
              exact absurd hob (by simp)
      case isFalse hw => simp at hp

/-- C7 as amended: in every state reachable by any sequence of write, flush
and close polls, if a newline-terminated chunk has been handed to the inner
writer and no successful inner flush has followed it (the logged obligation
is outstanding), then need_flush is true; equivalently, need_flush false
implies every such obligation has been discharged.  The converse direction of
the original iff is dropped: as the counterexample shows, the flag may
conservatively remain true after a flush resumed at the start of a write call
has already discharged the obligation. -/
theorem lineWriter_need_flush_flag_sound {σ : Type} (M : InnerW σ) (s0 : σ)
    (st : LineWriter (σ × List Ev)) (h : Reach M s0 st) :
    oblig st.inner.2 = true → st.need_flush = true := by
  induction h with
  | start => intro hob; simp [oblig] at hob
  | wstep st st' buf r hr hp ih => exact poll_write_oblig_step M st buf r st' hp ih
  | fstep st st' r hr hp ih =>
    intro hob
    rcases st with ⟨⟨s, l⟩, nf, w⟩
    rcases hF : M.pollFlush s with ⟨fr, sF⟩
    unfold LineWriter.poll_flush at hp
    simp only [traced, hF] at hp
    cases fr
    case pending =>
      injection hp with h1 h2
      subst h2
      simp only [oblig_append, obStep] at hob
      exact ih hob
    case err =>
      injection hp with h1 h2
      subst h2
      simp only [oblig_append, obStep] at hob
      exact ih hob
    case ok =>
      injection hp with h1 h2
      subst h2
      simp only [oblig_append, obStep] at hob
      exact absurd hob (by simp)
  | cstep st st' r hr hp ih =>
    intro hob
    rcases st with ⟨⟨s, l⟩, nf, w⟩
    rcases hF : M.pollFlush s with ⟨fr, sF⟩
    unfold LineWriter.poll_close LineWriter.poll_flush at hp
    simp only [traced, hF] at hp
    cases fr
    case pending =>
      injection hp with h1 h2
      subst h2
      simp only [oblig_append, obStep] at hob
      exact ih hob
    case err =>
      injection hp with h1 h2
      subst h2
      simp only [oblig_append, obStep] at hob
      exact ih hob
    case ok =>
      rcases hC : M.pollClose sF with ⟨cr, sC⟩
      simp only [traced, hC] at hp
      cases cr
      case pending =>
        injection hp with h1 h2
        subst h2
        simp only [oblig_append, obStep] at hob
        exact absurd hob (by simp)
      case err =>
        injection hp with h1 h2
        subst h2
        simp only [oblig_append, obStep] at hob
        exact absurd hob (by simp)
      case ok =>
        injection hp with h1 h2
        subst h2
        simp only [oblig_append, obStep] at hob
        exact absurd hob (by simp)

/-- Witness for C7 at a concrete reachable state: after a call whose line
write is accepted but whose flush fails, the obligation is outstanding and
need_flush is indeed true. -/
theorem lineWriter_need_flush_flag_sound_witness :
    oblig [Ev.w [10] (WRes.ok 1), Ev.f FRes.err] = true ∧
    (⟨(⟨[], [], [10], []⟩, [Ev.w [10] (WRes.ok 1), Ev.f FRes.err]), true, 0⟩
      : LineWriter (SIn × List Ev)).need_flush = true :=
  ⟨by decide,
   lineWriter_need_flush_flag_sound smach ⟨[WRes.ok 1], [FRes.err], [], []⟩ _
    (Reach.wstep _ _ [10] (.ok 1) Reach.start (by decide)) (by decide)⟩

/-! ## C2: pending-injection equivalence -/

/-- One operation driven to ready leads the never-suspending run and the
pending-injecting run from matching clean states to matching clean states. -/
theorem stepSim (op : Op) (b f : List Nat) :
    ∃ b' f', pollOpI op ⟨⟨b, f⟩, false, 0⟩ = some ⟨⟨b', f'⟩, false, 0⟩ ∧
      pollOpP op ⟨⟨b, f, false⟩, false, 0⟩ = some ⟨⟨b', f', false⟩, false, 0⟩ := by
  cases op with
  | fl =>
    refine ⟨[], f ++ b, ?_, ?_⟩
    · simp [pollOpI, LineWriter.poll_flush, bufVec]
    · by_cases hb : b = []
      · subst hb
        simp [pollOpP, LineWriter.poll_flush, pendVec]
      · simp [pollOpP, LineWriter.poll_flush, pendVec, hb]
  | wr buf =>
    cases hmr : memrchr 10 buf with
    | none =>
      refine ⟨b ++ buf, f, ?_, ?_⟩
      · simp [pollOpI, LineWriter.poll_write, bufVec, hmr]
      · simp [pollOpP, LineWriter.poll_write, pendVec, hmr]
    | some i =>
      have hi : i < buf.length := memrchr_lt_length hmr
      have hlen : (buf.take (i + 1)).length = i + 1 := by
        rw [List.length_take]
        omega
      have hslice : sliceRange buf 0 (i + 1) = buf.take (i + 1) := by
        simp [sliceRange]
      have hbuf : buf ≠ [] := by
        intro hc
        rw [hc] at hi
        simp at hi
      have htk : buf.take (i + 1) ≠ [] := by
        simp [List.take_eq_nil_iff, hbuf]
      have hba : b ++ buf.take (i + 1) ≠ [] := by
        simp [htk]
      have hslice2 : sliceRange buf (i + 1) (i + 1) = [] := by
        apply List.drop_eq_nil_of_le
        rw [List.length_take]
        omega
      refine ⟨buf.drop (i + 1), f ++ (b ++ buf.take (i + 1)), ?_, ?_⟩
      · simp [pollOpI, LineWriter.poll_write, bufVec, hmr, hslice, hlen,
          hslice2]
      · simp [pollOpP, LineWriter.poll_write, pendVec, hmr, hslice, hlen,
          hslice2, htk, hba]

/-- Whole-program simulation between the two runs. -/
theorem runSim (prog : List Op) : ∀ b f : List Nat,
    ∃ b' f', runI prog ⟨⟨b, f⟩, false, 0⟩ = some ⟨⟨b', f'⟩, false, 0⟩ ∧
      runP prog ⟨⟨b, f, false⟩, false, 0⟩ = some ⟨⟨b', f', false⟩, false, 0⟩ := by
  induction prog with
  | nil => intro b f; exact ⟨b, f, rfl, rfl⟩
  | cons op ops ih =>
    intro b f
    obtain ⟨b1, f1, h1, h2⟩ := stepSim op b f
    obtain ⟨b', f', h3, h4⟩ := ih b1 f1
    refine ⟨b', f', ?_, ?_⟩
    · simp [runI, h1, h3]
    · simp [runP, h2, h4]

/-- C2: for every sequence of write and flush inputs, running the LineWriter
against the pending-injecting buffered sink (each operation re-driven until
ready) yields the same final durable content, and even the same buffered
remainder, as running the identical input sequence against the
never-suspending sink. -/
theorem lineWriter_pending_injection_equiv (prog : List Op) :
    ∃ stI stP, runI prog ⟨⟨[], []⟩, false, 0⟩ = some stI ∧
      runP prog ⟨⟨[], [], false⟩, false, 0⟩ = some stP ∧
      stI.inner.flushed = stP.inner.flushed ∧
      stI.inner.buffered = stP.inner.buffered := by
  obtain ⟨b', f', h1, h2⟩ := runSim prog [] []
  exact ⟨_, _, h1, h2, rfl, rfl⟩

/-- Witness for C2 at a concrete program: a newline write followed by an
explicit flush. -/
theorem lineWriter_pending_injection_equiv_witness :
    ∃ stI stP, runI [Op.wr [0, 10, 2], Op.fl] ⟨⟨[], []⟩, false, 0⟩ = some stI ∧
      runP [Op.wr [0, 10, 2], Op.fl] ⟨⟨[], [], false⟩, false, 0⟩ = some stP ∧
      stI.inner.flushed = stP.inner.flushed ∧
      stI.inner.buffered = stP.inner.buffered :=
  lineWriter_pending_injection_equiv [Op.wr [0, 10, 2], Op.fl]
